import Mathlib

/-!
Verification of the crc8 library: a shallow embedding of the polynomial
engine (src/polynomial.rs) and the public CRC operations (src/lib.rs).

A Rust value of type Polynomial<MAX_BYTES> (a fixed array of u8, most
significant byte first) is embedded as a `List Nat` whose entries are
below 256; the width MAX_BYTES is the list's length.  The Rust `while`
loop of Div::div is embedded with explicit fuel (the loop can fail to
terminate when the divisor is the all-zero polynomial, and the public
operations panic on empty buffers), so fallible operations return
Option values: `none` means the Rust computation panics or never
returns.
-/

namespace Crc8

/-- Embeds Polynomial::rotate_left from src/polynomial.rs: if n is at least
the byte count the result is all zeroes, otherwise every byte moves down by
n indices and the leftover bytes become zero. -/
def rotate_left (p : List Nat) (n : Nat) : List Nat :=
  if p.length ≤ n then List.replicate p.length 0
  else p.drop n ++ List.replicate n 0

/-- Embeds the inner loop of Polynomial::bit_len: scan bit indices from
bit_index upwards (i.e. physical bits 7 - bit_index downwards) and return
the first bit_index whose bit is set in byte. -/
def firstSetBitGo (byte : Nat) : Nat → Nat → Option Nat
  | _, 0 => none
  | bit_index, fuel + 1 =>
    if byte &&& (1 <<< (7 - bit_index)) != 0 then some bit_index
    else firstSetBitGo byte (bit_index + 1) fuel

/-- The inner loop of Polynomial::bit_len started at bit_index 0, running
for the 8 bits of a byte. -/
def firstSetBit (byte : Nat) : Option Nat := firstSetBitGo byte 0 8

/-- Embeds the outer loop of Polynomial::bit_len: scan bytes from most
significant to least significant; at the first byte with a set bit return
the source's formula, otherwise 0. -/
def bit_lenGo (total : Nat) : List Nat → Nat → Nat
  | [], _ => 0
  | byte :: rest, byte_index =>
    match firstSetBit byte with
    | some bit_index => total * 8 - (byte_index * 8 + bit_index) - 1
    | none => bit_lenGo total rest (byte_index + 1)

/-- Embeds Polynomial::bit_len from src/polynomial.rs. -/
def bit_len (p : List Nat) : Nat := bit_lenGo p.length p 0

/-- Embeds the inner loop of Polynomial::is_more_sign: compare bits of the
two bytes from bit k - 1 down to bit 0, returning self's bit at the first
position where the two bytes differ. -/
def is_more_sign_bits (self_byte cmp_byte : Nat) : Nat → Bool
  | 0 => false
  | k + 1 =>
    let self_has_bit := self_byte &&& (1 <<< k) != 0
    let cmp_has_bit := cmp_byte &&& (1 <<< k) != 0
    if self_has_bit = cmp_has_bit then is_more_sign_bits self_byte cmp_byte k
    else self_has_bit

/-- Embeds Polynomial::is_more_sign from src/polynomial.rs: scan byte pairs
from most significant to least significant, skipping equal bytes; at the
first differing byte compare its bits from bit 7 down. -/
def is_more_sign : List Nat → List Nat → Bool
  | self_byte :: self_rest, cmp_byte :: cmp_rest =>
    if self_byte = cmp_byte then is_more_sign self_rest cmp_rest
    else is_more_sign_bits self_byte cmp_byte 8
  | _, _ => false

/-- Embeds Polynomial::new_from_byte from src/polynomial.rs: an all-zero
array with the given byte written at index MAX_BYTES - 1.  For width 0 the
Rust code panics (index out of bounds), embedded as none. -/
def new_from_byte (max_bytes : Nat) (byte : Nat) : Option (List Nat) :=
  match max_bytes with
  | 0 => none
  | n + 1 => some (List.replicate n 0 ++ [byte])

/-- Embeds the intra-byte part of Shl::shl from src/polynomial.rs: each byte
is shifted left by s (truncated to 8 bits, as for a Rust u8) and absorbs the
top s bits of its right neighbour; the final byte has no incoming bits. -/
def shlBytes (s : Nat) : List Nat → List Nat
  | [] => []
  | [b] => [(b <<< s) % 256]
  | b :: b2 :: rest => (((b <<< s) % 256) ||| (b2 >>> (8 - s))) :: shlBytes s (b2 :: rest)

/-- Embeds Shl::shl from src/polynomial.rs: rotate by rhs / 8 whole bytes,
then shift within bytes by rhs % 8 bits (skipped when that amount is 0). -/
def shl (p : List Nat) (rhs : Nat) : List Nat :=
  let rotated := rotate_left p (rhs / 8)
  let shl_amount := rhs % 8
  if shl_amount != 0 then shlBytes shl_amount rotated else rotated

/-- Embeds Sub::sub from src/polynomial.rs: byte-wise exclusive or. -/
def sub (x y : List Nat) : List Nat := List.zipWith (fun a b => a ^^^ b) x y

/-- Embeds the while loop of Div::div from src/polynomial.rs with explicit
fuel: while the divisor rhs is not more significant than self, subtract the
divisor shifted left by the bit-length difference.  Fuel exhaustion (an
infinite Rust loop, e.g. for an all-zero divisor) yields none. -/
def divLoop : Nat → List Nat → List Nat → Option (List Nat)
  | 0, _, _ => none
  | fuel + 1, self, rhs =>
    if is_more_sign rhs self then some self
    else divLoop fuel (sub self (shl rhs (bit_len self - bit_len rhs))) rhs

/-- Embeds Div::div from src/polynomial.rs.  The fuel 8 * N + 1 allows
8 * N loop iterations, which is proved sufficient for every nonzero divisor
(claim C3), so the fuel is an upper bound and not a behavioural change. -/
def div (self rhs : List Nat) : Option (List Nat) :=
  divLoop (8 * self.length + 1) self rhs

/-- Embeds fetch_crc8 from src/lib.rs: divide the data polynomial by the
widened generator polynomial and return the last byte of the remainder. -/
def fetch_crc8 (data : List Nat) (polynomial : Nat) : Option Nat :=
  (new_from_byte data.length polynomial).bind fun divisor =>
    (div data divisor).bind fun result_arr =>
      result_arr.get? (data.length - 1)

/-- Embeds has_valid_crc8 from src/lib.rs: fetch_crc8 equals zero. -/
def has_valid_crc8 (data : List Nat) (polynomial : Nat) : Option Bool :=
  (fetch_crc8 data polynomial).map fun c => c == 0

/-- Embeds insert_crc8 from src/lib.rs: zero the last byte, then overwrite
it with polynomial XOR fetch_crc8 of the zero-terminated buffer.  For an
empty buffer the Rust code panics on indexing, embedded as none. -/
def insert_crc8 (data : List Nat) (polynomial : Nat) : Option (List Nat) :=
  match data with
  | [] => none
  | _ :: _ =>
    let data0 := data.set (data.length - 1) 0
    (fetch_crc8 data0 polynomial).map fun r =>
      data0.set (data0.length - 1) (polynomial ^^^ r)

/-- All entries of the list are bytes (below 256). -/
def Bytes (arr : List Nat) : Prop := ∀ b ∈ arr, b < 256

/-- The numeric value of a byte list read as a big-endian number; this is
the polynomial over GF(2) encoded by its coefficient bit string. -/
def value : List Nat → Nat
  | [] => 0
  | b :: rest => b * 256 ^ rest.length + value rest

/-- Carry-less (GF(2)) multiplication on the bit-string encoding of
polynomials over GF(2): used to state that the division loop only ever
subtracts multiples of the divisor. -/
def clmul (p g : Nat) : Nat :=
  if h : p = 0 then 0
  else (clmul (p / 2) g) <<< 1 ^^^ (if p % 2 = 1 then g else 0)
termination_by p
decreasing_by exact Nat.div_lt_self (Nat.pos_of_ne_zero h) (by omega)

/-- m is a GF(2) multiple of g. -/
def IsMul (g m : Nat) : Prop := ∃ p, m = clmul p g

/-- Numeric twin of divLoop acting on the values of the byte lists of a
fixed width w: the guard compares values, the shift is truncated to the
8 * w bits a width-w polynomial can hold. -/
def divLoopNum (w : Nat) : Nat → Nat → Nat → Option Nat
  | 0, _, _ => none
  | fuel + 1, x, d =>
    if x < d then some x
    else divLoopNum w fuel (x ^^^ ((d <<< (Nat.log 2 x - Nat.log 2 d)) % 2 ^ (8 * w))) d

/-! ### Toolkit: bit-level facts about Nat -/

theorem xor_shiftLeft_distrib (a b k : Nat) : (a ^^^ b) <<< k = a <<< k ^^^ b <<< k := by
  apply Nat.eq_of_testBit_eq
  intro j
  simp [Nat.testBit_shiftLeft, Nat.testBit_xor, Bool.and_xor_distrib_left]

theorem xor_shiftRight_distrib (a b k : Nat) : (a ^^^ b) >>> k = a >>> k ^^^ b >>> k := by
  apply Nat.eq_of_testBit_eq
  intro j
  simp [Nat.testBit_shiftRight, Nat.testBit_xor]

theorem mul_add_lt_is_xor {b k : Nat} (hb : b < 2 ^ k) (a : Nat) :
    2 ^ k * a + b = 2 ^ k * a ^^^ b := by
  apply Nat.eq_of_testBit_eq
  intro j
  rw [Nat.testBit_mul_pow_two_add a hb j]
  rcases Nat.lt_or_ge j k with h | h
  · simp [Nat.testBit_xor, Nat.testBit_mul_pow_two, Nat.not_le_of_lt h]
  · have hbj : Nat.testBit b j = false :=
      Nat.testBit_lt_two_pow (lt_of_lt_of_le hb (Nat.pow_le_pow_right (by norm_num) h))
    simp [Nat.testBit_xor, Nat.testBit_mul_pow_two, h, hbj]

theorem xor_lt_top {a b L : Nat} (ha1 : 2 ^ L ≤ a) (ha2 : a < 2 ^ (L + 1))
    (hb1 : 2 ^ L ≤ b) (hb2 : b < 2 ^ (L + 1)) : a ^^^ b < 2 ^ L := by
  have hpow : (2 : Nat) ^ (L + 1) = 2 ^ L + 2 ^ L := by rw [pow_succ]; omega
  have ha : a = 2 ^ L * 1 + (a - 2 ^ L) := by omega
  have hb : b = 2 ^ L * 1 + (b - 2 ^ L) := by omega
  have ha' : a - 2 ^ L < 2 ^ L := by omega
  have hb' : b - 2 ^ L < 2 ^ L := by omega
  calc a ^^^ b = (2 ^ L * 1 ^^^ (a - 2 ^ L)) ^^^ (2 ^ L * 1 ^^^ (b - 2 ^ L)) := by
        rw [← mul_add_lt_is_xor ha', ← mul_add_lt_is_xor hb', ← ha, ← hb]
    _ = (a - 2 ^ L) ^^^ (b - 2 ^ L) := by
        rw [Nat.xor_comm (2 ^ L * 1) (a - 2 ^ L), Nat.xor_assoc, ← Nat.xor_assoc (2 ^ L * 1),
          Nat.xor_self, Nat.zero_xor]
    _ < 2 ^ L := Nat.xor_lt_two_pow ha' hb'

theorem xor_top_preserved {a b L : Nat} (ha1 : 2 ^ L ≤ a) (ha2 : a < 2 ^ (L + 1))
    (hb : b < 2 ^ L) : 2 ^ L ≤ a ^^^ b ∧ a ^^^ b < 2 ^ (L + 1) := by
  have hpow : (2 : Nat) ^ (L + 1) = 2 ^ L + 2 ^ L := by rw [pow_succ]; omega
  have ha : a = 2 ^ L * 1 + (a - 2 ^ L) := by omega
  have ha' : a - 2 ^ L < 2 ^ L := by omega
  have hx : (a - 2 ^ L) ^^^ b < 2 ^ L := Nat.xor_lt_two_pow ha' hb
  have hsum : a ^^^ b = 2 ^ L * 1 + ((a - 2 ^ L) ^^^ b) := by
    calc a ^^^ b = (2 ^ L * 1 + (a - 2 ^ L)) ^^^ b := by rw [← ha]
      _ = (2 ^ L * 1 ^^^ (a - 2 ^ L)) ^^^ b := by rw [mul_add_lt_is_xor ha']
      _ = 2 ^ L * 1 ^^^ ((a - 2 ^ L) ^^^ b) := by rw [Nat.xor_assoc]
      _ = 2 ^ L * 1 + ((a - 2 ^ L) ^^^ b) := by rw [← mul_add_lt_is_xor hx]
  omega

theorem log2_bounds {x : Nat} (hx : x ≠ 0) :
    2 ^ Nat.log 2 x ≤ x ∧ x < 2 ^ (Nat.log 2 x + 1) :=
  ⟨Nat.pow_log_le_self 2 hx, Nat.lt_pow_succ_log_self (by norm_num) x⟩

theorem log2_shiftLeft (x k : Nat) (hx : x ≠ 0) :
    Nat.log 2 (x <<< k) = Nat.log 2 x + k := by
  rw [Nat.shiftLeft_eq]
  apply Nat.log_eq_of_pow_le_of_lt_pow
  · rw [pow_add]
    exact Nat.mul_le_mul_right _ (Nat.pow_log_le_self 2 hx)
  · calc x * 2 ^ k < 2 ^ (Nat.log 2 x + 1) * 2 ^ k :=
        (Nat.mul_lt_mul_right (Nat.two_pow_pos k)).mpr (Nat.lt_pow_succ_log_self (by norm_num) x)
    _ = 2 ^ (Nat.log 2 x + k + 1) := by rw [← pow_add]; ring_nf

theorem shiftLeft_ne_zero {x : Nat} (k : Nat) (hx : x ≠ 0) : x <<< k ≠ 0 := by
  rw [Nat.shiftLeft_eq]
  positivity

/-! ### Toolkit: carry-less multiplication -/

theorem clmul_zero_left (g : Nat) : clmul 0 g = 0 := by
  rw [clmul]
  simp

theorem clmul_even {p : Nat} (g : Nat) (hp : p % 2 = 0) :
    clmul p g = (clmul (p / 2) g) <<< 1 := by
  rcases eq_or_ne p 0 with rfl | h
  · rw [clmul_zero_left]
    norm_num [clmul_zero_left, Nat.zero_shiftLeft]
  · rw [clmul]
    simp [h, hp]

theorem clmul_odd {p : Nat} (g : Nat) (hp : p % 2 = 1) :
    clmul p g = (clmul (p / 2) g) <<< 1 ^^^ g := by
  have h : p ≠ 0 := by omega
  rw [clmul]
  simp [h, hp]

theorem xor_mod_two (a b : Nat) : (a ^^^ b) % 2 = if a % 2 = b % 2 then 0 else 1 := by
  have h := Nat.testBit_xor a b 0
  simp only [Nat.testBit_zero] at h
  rcases Nat.mod_two_eq_zero_or_one a with ha | ha <;>
    rcases Nat.mod_two_eq_zero_or_one b with hb | hb <;>
      rcases Nat.mod_two_eq_zero_or_one (a ^^^ b) with hx | hx <;>
        simp [ha, hb, hx] at h ⊢

theorem xor_div_two (a b : Nat) : (a ^^^ b) / 2 = a / 2 ^^^ b / 2 := by
  have h := xor_shiftRight_distrib a b 1
  simpa [Nat.shiftRight_eq_div_pow] using h

theorem clmul_xor_two_pow (g : Nat) : ∀ k p, clmul (p ^^^ 2 ^ k) g = clmul p g ^^^ g <<< k := by
  intro k
  induction k with
  | zero =>
    intro p
    rcases Nat.mod_two_eq_zero_or_one p with hp | hp
    · have h1 : (p ^^^ 1) % 2 = 1 := by rw [xor_mod_two]; simp [hp]
      have h2 : (p ^^^ 1) / 2 = p / 2 := by rw [xor_div_two]; norm_num
      rw [pow_zero, clmul_odd g h1, h2, clmul_even g hp, Nat.shiftLeft_zero]
    · have h1 : (p ^^^ 1) % 2 = 0 := by rw [xor_mod_two]; simp [hp]
      have h2 : (p ^^^ 1) / 2 = p / 2 := by rw [xor_div_two]; norm_num
      rw [pow_zero, clmul_even g h1, h2, clmul_odd g hp, Nat.shiftLeft_zero,
        Nat.xor_assoc, Nat.xor_self, Nat.xor_zero]
  | succ k ih =>
    intro p
    have hmod : (2 : Nat) ^ (k + 1) % 2 = 0 := by
      simp [pow_succ, Nat.mul_mod_left]
    have hdiv : (2 : Nat) ^ (k + 1) / 2 = 2 ^ k := by
      rw [pow_succ]
      exact Nat.mul_div_cancel _ (by norm_num)
    have h2 : (p ^^^ 2 ^ (k + 1)) / 2 = p / 2 ^^^ 2 ^ k := by
      rw [xor_div_two, hdiv]
    rcases Nat.mod_two_eq_zero_or_one p with hp | hp
    · have h1 : (p ^^^ 2 ^ (k + 1)) % 2 = 0 := by rw [xor_mod_two]; simp [hp, hmod]
      rw [clmul_even g h1, h2, ih, clmul_even g hp, xor_shiftLeft_distrib,
        Nat.shiftLeft_shiftLeft]
    · have h1 : (p ^^^ 2 ^ (k + 1)) % 2 = 1 := by rw [xor_mod_two]; simp [hp, hmod]
      rw [clmul_odd g h1, h2, ih, clmul_odd g hp, xor_shiftLeft_distrib,
        Nat.shiftLeft_shiftLeft]
      rw [Nat.xor_assoc, Nat.xor_assoc, Nat.xor_comm (g <<< (k + 1)) g]

theorem clmul_two_pow (g k : Nat) : clmul (2 ^ k) g = g <<< k := by
  have h := clmul_xor_two_pow g k 0
  simpa [clmul_zero_left] using h

theorem clmul_one_left (g : Nat) : clmul 1 g = g := by
  have h := clmul_two_pow g 0
  simpa using h

theorem clmul_one_right : ∀ p, clmul p 1 = p := by
  intro p
  induction p using Nat.strong_induction_on with
  | _ p ih =>
    rcases eq_or_ne p 0 with rfl | h
    · exact clmul_zero_left 1
    · rcases Nat.mod_two_eq_zero_or_one p with hp | hp
      · rw [clmul_even 1 hp, ih (p / 2) (by omega), Nat.shiftLeft_eq, pow_one]
        omega
      · rw [clmul_odd 1 hp, ih (p / 2) (by omega), Nat.shiftLeft_eq, pow_one, Nat.mul_comm]
        have h1 : (1 : Nat) < 2 ^ 1 := by norm_num
        have h2 := mul_add_lt_is_xor h1 (p / 2)
        rw [pow_one] at h2
        omega

theorem clmul_props (g : Nat) (hg : g ≠ 0) : ∀ p, p ≠ 0 →
    clmul p g ≠ 0 ∧ Nat.log 2 (clmul p g) = Nat.log 2 p + Nat.log 2 g := by
  intro p
  induction p using Nat.strong_induction_on with
  | _ p ih =>
    intro hp
    rcases eq_or_ne p 1 with rfl | hp1
    · rw [clmul_one_left]
      exact ⟨hg, by simp [Nat.log_one_right]⟩
    · have hp2 : 2 ≤ p := by omega
      have hq : p / 2 ≠ 0 := by omega
      obtain ⟨hcne, hclog⟩ := ih (p / 2) (by omega) hq
      have hlogp : Nat.log 2 p = Nat.log 2 (p / 2) + 1 := by
        have h1 : Nat.log 2 (p / 2) = Nat.log 2 p - 1 := Nat.log_div_base 2 p
        have h2 : 0 < Nat.log 2 p := Nat.log_pos (by norm_num) hp2
        omega
      have hsh : Nat.log 2 ((clmul (p / 2) g) <<< 1) = Nat.log 2 (clmul (p / 2) g) + 1 :=
        log2_shiftLeft _ 1 hcne
      have hshne : (clmul (p / 2) g) <<< 1 ≠ 0 := shiftLeft_ne_zero 1 hcne
      obtain ⟨hlo, hhi⟩ := log2_bounds hshne
      rcases Nat.mod_two_eq_zero_or_one p with hpar | hpar
      · rw [clmul_even g hpar]
        exact ⟨hshne, by rw [hsh, hclog]; omega⟩
      · rw [clmul_odd g hpar]
        have hgL : g < 2 ^ Nat.log 2 ((clmul (p / 2) g) <<< 1) := by
          have hg1 : g < 2 ^ (Nat.log 2 g + 1) := (log2_bounds hg).2
          have : Nat.log 2 g + 1 ≤ Nat.log 2 ((clmul (p / 2) g) <<< 1) := by
            rw [hsh, hclog]; omega
          exact lt_of_lt_of_le hg1 (Nat.pow_le_pow_right (by norm_num) this)
        obtain ⟨hxlo, hxhi⟩ := xor_top_preserved hlo hhi hgL
        constructor
        · have : 0 < 2 ^ Nat.log 2 ((clmul (p / 2) g) <<< 1) := Nat.two_pow_pos _
          omega
        · rw [Nat.log_eq_of_pow_le_of_lt_pow hxlo hxhi, hsh, hclog]
          omega

/-! ### Toolkit: GF(2) multiples -/

theorem isMul_zero (g : Nat) : IsMul g 0 := ⟨0, (clmul_zero_left g).symm⟩

theorem isMul_self (g : Nat) : IsMul g g := ⟨1, (clmul_one_left g).symm⟩

theorem isMul_xor_shift {g m : Nat} (h : IsMul g m) (k : Nat) : IsMul g (m ^^^ g <<< k) := by
  obtain ⟨p, rfl⟩ := h
  exact ⟨p ^^^ 2 ^ k, by rw [clmul_xor_two_pow]⟩

theorem isMul_ge {g m : Nat} (h : IsMul g m) (hm : m ≠ 0) (hg : g ≠ 0) : g ≤ m := by
  obtain ⟨p, rfl⟩ := h
  have hp : p ≠ 0 := by
    rintro rfl
    exact hm (clmul_zero_left g)
  rcases eq_or_ne p 1 with rfl | hp1
  · rw [clmul_one_left]
  · have hp2 : 2 ≤ p := by omega
    obtain ⟨hne, hlog⟩ := clmul_props g hg p hp
    have hlp : 1 ≤ Nat.log 2 p := Nat.log_pos (by norm_num) hp2
    have h1 : 2 ^ (Nat.log 2 g + 1) ≤ 2 ^ Nat.log 2 (clmul p g) := by
      apply Nat.pow_le_pow_right (by norm_num)
      omega
    have h2 : g < 2 ^ (Nat.log 2 g + 1) := (log2_bounds hg).2
    have h3 : 2 ^ Nat.log 2 (clmul p g) ≤ clmul p g := (log2_bounds hne).1
    omega

/-! ### The numeric division loop -/

theorem divStep {w x d : Nat} (hd : d ≠ 0) (hdx : d ≤ x) (hxw : x < 2 ^ (8 * w)) :
    (d <<< (Nat.log 2 x - Nat.log 2 d)) % 2 ^ (8 * w) = d <<< (Nat.log 2 x - Nat.log 2 d) ∧
      x ^^^ d <<< (Nat.log 2 x - Nat.log 2 d) < 2 ^ Nat.log 2 x := by
  have hx : x ≠ 0 := by omega
  have hld : Nat.log 2 d ≤ Nat.log 2 x := Nat.log_mono_right hdx
  have hsh : Nat.log 2 (d <<< (Nat.log 2 x - Nat.log 2 d)) = Nat.log 2 x := by
    rw [log2_shiftLeft _ _ hd]; omega
  have hshne : d <<< (Nat.log 2 x - Nat.log 2 d) ≠ 0 := shiftLeft_ne_zero _ hd
  obtain ⟨hlo, hhi⟩ := log2_bounds hshne
  rw [hsh] at hlo hhi
  have hxl : Nat.log 2 x < 8 * w := Nat.log_lt_of_lt_pow hx hxw
  constructor
  · apply Nat.mod_eq_of_lt
    exact lt_of_lt_of_le hhi (Nat.pow_le_pow_right (by norm_num) (by omega))
  · exact xor_lt_top (log2_bounds hx).1 (log2_bounds hx).2 hlo hhi

theorem divLoopNum_total {w d : Nat} (hd : d ≠ 0) :
    ∀ fuel x, x < 2 ^ fuel → x < 2 ^ (8 * w) →
      ∃ r, divLoopNum w (fuel + 1) x d = some r := by
  intro fuel
  induction fuel with
  | zero =>
    intro x hx _
    have : x = 0 := by omega
    subst this
    exact ⟨0, by simp [divLoopNum, Nat.pos_of_ne_zero hd]⟩
  | succ fuel ih =>
    intro x hx hxw
    by_cases hlt : x < d
    · exact ⟨x, by simp [divLoopNum, hlt]⟩
    · push_neg at hlt
      have hx0 : x ≠ 0 := by omega
      obtain ⟨hmod, hxor⟩ := divStep hd hlt hxw
      have hlog : Nat.log 2 x ≤ fuel := by
        have := Nat.log_lt_of_lt_pow hx0 hx
        omega
      have h1 : x ^^^ d <<< (Nat.log 2 x - Nat.log 2 d) < 2 ^ fuel :=
        lt_of_lt_of_le hxor (Nat.pow_le_pow_right (by norm_num) hlog)
      have h2 : x ^^^ d <<< (Nat.log 2 x - Nat.log 2 d) < 2 ^ (8 * w) := by
        have := (log2_bounds hx0).1
        omega
      obtain ⟨r, hr⟩ := ih _ h1 h2
      refine ⟨r, ?_⟩
      rw [show fuel + 1 + 1 = fuel + 2 from rfl]
      simp only [divLoopNum, if_neg (not_lt.2 hlt), hmod]
      exact hr

theorem divLoopNum_spec {w d : Nat} (hd : d ≠ 0) :
    ∀ fuel x r, x < 2 ^ (8 * w) → divLoopNum w fuel x d = some r →
      r < d ∧ r ≤ x ∧ ∃ p, r = x ^^^ clmul p d := by
  intro fuel
  induction fuel with
  | zero =>
    intro x r _ h
    simp [divLoopNum] at h
  | succ fuel ih =>
    intro x r hxw h
    by_cases hlt : x < d
    · simp only [divLoopNum, if_pos hlt, Option.some.injEq] at h
      subst h
      exact ⟨hlt, le_refl x, 0, by rw [clmul_zero_left, Nat.xor_zero]⟩
    · push_neg at hlt
      have hx0 : x ≠ 0 := by omega
      obtain ⟨hmod, hxor⟩ := divStep hd hlt hxw
      rw [divLoopNum, if_neg (not_lt.2 hlt), hmod] at h
      have hx'w : x ^^^ d <<< (Nat.log 2 x - Nat.log 2 d) < 2 ^ (8 * w) := by
        have := (log2_bounds hx0).1
        omega
      obtain ⟨h1, h2, p, hp⟩ := ih _ r hx'w h
      refine ⟨h1, ?_, ⟨p ^^^ 2 ^ (Nat.log 2 x - Nat.log 2 d), ?_⟩⟩
      · have := (log2_bounds hx0).1
        omega
      · rw [hp, clmul_xor_two_pow, Nat.xor_assoc,
          Nat.xor_comm (d <<< (Nat.log 2 x - Nat.log 2 d))]

theorem divLoopNum_isMul {w d : Nat} (hd : d ≠ 0) :
    ∀ fuel m, m < 2 ^ fuel → m < 2 ^ (8 * w) → IsMul d m →
      divLoopNum w (fuel + 1) m d = some 0 := by
  intro fuel
  induction fuel with
  | zero =>
    intro m hm _ _
    have : m = 0 := by omega
    subst this
    simp [divLoopNum, Nat.pos_of_ne_zero hd]
  | succ fuel ih =>
    intro m hm hmw hmul
    rcases eq_or_ne m 0 with rfl | hm0
    · simp [divLoopNum, Nat.pos_of_ne_zero hd]
    · have hge : d ≤ m := isMul_ge hmul hm0 hd
      obtain ⟨hmod, hxor⟩ := divStep hd hge hmw
      have hlog : Nat.log 2 m ≤ fuel := by
        have := Nat.log_lt_of_lt_pow hm0 hm
        omega
      have h1 : m ^^^ d <<< (Nat.log 2 m - Nat.log 2 d) < 2 ^ fuel :=
        lt_of_lt_of_le hxor (Nat.pow_le_pow_right (by norm_num) hlog)
      have h2 : m ^^^ d <<< (Nat.log 2 m - Nat.log 2 d) < 2 ^ (8 * w) := by
        have := (log2_bounds hm0).1
        omega
      have hmul' : IsMul d (m ^^^ d <<< (Nat.log 2 m - Nat.log 2 d)) :=
        isMul_xor_shift hmul _
      have := ih _ h1 h2 hmul'
      rw [show fuel + 1 + 1 = fuel + 2 from rfl]
      rw [divLoopNum, if_neg (not_lt.2 hge), hmod]
      exact this

/-! ### Values of byte lists -/

theorem pow256 (n : Nat) : (256 : Nat) ^ n = 2 ^ (8 * n) := by
  rw [show (256 : Nat) = 2 ^ 8 from rfl, ← pow_mul]

theorem value_append (xs ys : List Nat) :
    value (xs ++ ys) = value xs * 256 ^ ys.length + value ys := by
  induction xs with
  | nil => simp [value]
  | cons b rest ih =>
    rw [List.cons_append]
    rw [show value (b :: (rest ++ ys)) = b * 256 ^ (rest ++ ys).length + value (rest ++ ys)
        from rfl,
      show value (b :: rest) = b * 256 ^ rest.length + value rest from rfl,
      ih, List.length_append, pow_add]
    ring

theorem value_lt {arr : List Nat} (hB : Bytes arr) : value arr < 256 ^ arr.length := by
  induction arr with
  | nil => simp [value]
  | cons b rest ih =>
    have hb : b < 256 := hB b (by simp)
    have hr : value rest < 256 ^ rest.length := ih fun x hx => hB x (by simp [hx])
    simp only [value, List.length_cons, pow_succ]
    calc b * 256 ^ rest.length + value rest
        < b * 256 ^ rest.length + 256 ^ rest.length := by omega
      _ = (b + 1) * 256 ^ rest.length := by ring
      _ ≤ 256 * 256 ^ rest.length := Nat.mul_le_mul_right _ (by omega)
      _ = 256 ^ rest.length * 256 := by ring

theorem value_replicate_zero (n : Nat) : value (List.replicate n 0) = 0 := by
  induction n with
  | zero => rfl
  | succ n ih => simp [List.replicate, value, ih]

theorem value_eq_zero_iff {arr : List Nat} : value arr = 0 ↔ ∀ b ∈ arr, b = 0 := by
  induction arr with
  | nil => simp [value]
  | cons b rest ih =>
    simp only [value, List.mem_cons]
    constructor
    · intro h
      have hp : 0 < (256 : Nat) ^ rest.length := Nat.pos_pow_of_pos _ (by norm_num)
      have hb : b = 0 := by
        by_contra hb
        have : 1 ≤ b := Nat.pos_of_ne_zero hb
        nlinarith [Nat.le_of_eq h]
      refine fun x hx => hx.elim (fun h1 => h1 ▸ hb) fun h1 => ih.1 (by omega) x h1
    · intro h
      have hb : b = 0 := h b (Or.inl rfl)
      have hr : value rest = 0 := ih.2 fun x hx => h x (Or.inr hx)
      simp [hb, hr]

theorem value_append_replicate (xs : List Nat) (n : Nat) :
    value (xs ++ List.replicate n 0) = value xs * 2 ^ (8 * n) := by
  rw [value_append, value_replicate_zero, List.length_replicate, pow256]
  omega

theorem value_drop {arr : List Nat} (n : Nat) (hn : n ≤ arr.length) (hB : Bytes arr) :
    value (arr.drop n) = value arr % 2 ^ (8 * (arr.length - n)) := by
  have hlen : (arr.drop n).length = arr.length - n := List.length_drop n arr
  have hBd : Bytes (arr.drop n) := fun x hx => hB x (List.mem_of_mem_drop hx)
  have hlt : value (arr.drop n) < 2 ^ (8 * (arr.length - n)) := by
    have := value_lt hBd
    rwa [hlen, pow256] at this
  have hval : value arr
      = value (arr.take n) * 2 ^ (8 * (arr.length - n)) + value (arr.drop n) := by
    conv_lhs => rw [← List.take_append_drop n arr]
    rw [value_append, hlen, pow256]
  rw [hval, Nat.mul_comm (value (List.take n arr)), Nat.mul_add_mod, Nat.mod_eq_of_lt hlt]

/-! ### Bridge: rotate_left -/

theorem rotate_left_length (p : List Nat) (n : Nat) : (rotate_left p n).length = p.length := by
  unfold rotate_left
  by_cases h : p.length ≤ n
  · simp [h]
  · push_neg at h
    simp [Nat.not_le_of_lt h, List.length_drop]
    omega

theorem rotate_left_bytes {p : List Nat} (n : Nat) (hB : Bytes p) : Bytes (rotate_left p n) := by
  unfold rotate_left
  intro x hx
  by_cases h : p.length ≤ n
  · rw [if_pos h] at hx
    have := List.eq_of_mem_replicate hx
    omega
  · rw [if_neg h] at hx
    rcases List.mem_append.1 hx with h1 | h1
    · exact hB x (List.mem_of_mem_drop h1)
    · have := List.eq_of_mem_replicate h1
      omega

theorem value_rotate_left {p : List Nat} (n : Nat) (hB : Bytes p) :
    value (rotate_left p n) = (value p * 2 ^ (8 * n)) % 2 ^ (8 * p.length) := by
  unfold rotate_left
  by_cases h : p.length ≤ n
  · rw [if_pos h, value_replicate_zero]
    have hdvd : (2 : Nat) ^ (8 * p.length) ∣ value p * 2 ^ (8 * n) :=
      Dvd.dvd.mul_left (pow_dvd_pow 2 (by omega)) _
    exact (Nat.mod_eq_zero_of_dvd hdvd).symm
  · push_neg at h
    rw [if_neg (Nat.not_le_of_lt h), value_append_replicate,
      value_drop n (le_of_lt h) hB]
    have hsplit : 8 * p.length = 8 * (p.length - n) + 8 * n := by omega
    rw [hsplit, pow_add, Nat.mul_mod_mul_right]

/-! ### Bridge: sub -/

theorem sub_length {x y : List Nat} (h : x.length = y.length) : (sub x y).length = x.length := by
  simp [sub, h]

theorem sub_bytes : ∀ x y : List Nat, Bytes x → Bytes y → Bytes (sub x y) := by
  intro x
  induction x with
  | nil => intro y _ _ b hb; simp [sub] at hb
  | cons a xs ih =>
    intro y hx hy b hb
    cases y with
    | nil => simp [sub] at hb
    | cons c ys =>
      simp only [sub, List.zipWith_cons_cons, List.mem_cons] at hb
      have h256 : (256 : Nat) = 2 ^ 8 := by norm_num
      rcases hb with rfl | hb
      · have h1 : a < 2 ^ 8 := by have := hx a (by simp); omega
        have h2 : c < 2 ^ 8 := by have := hy c (by simp); omega
        have := Nat.xor_lt_two_pow h1 h2
        omega
      · exact ih ys (fun u hu => hx u (by simp [hu])) (fun u hu => hy u (by simp [hu])) b hb

theorem xor_mix (p q r t : Nat) : (p ^^^ q) ^^^ (r ^^^ t) = (p ^^^ r) ^^^ (q ^^^ t) := by
  apply Nat.eq_of_testBit_eq
  intro j
  simp only [Nat.testBit_xor]
  cases p.testBit j <;> cases q.testBit j <;> cases r.testBit j <;> cases t.testBit j <;> rfl

theorem xor_mul_two_pow (a b k : Nat) : (a ^^^ b) * 2 ^ k = a * 2 ^ k ^^^ b * 2 ^ k := by
  have h := xor_shiftLeft_distrib a b k
  simpa [Nat.shiftLeft_eq] using h

theorem value_sub {x y : List Nat} (h : x.length = y.length) (hx : Bytes x) (hy : Bytes y) :
    value (sub x y) = value x ^^^ value y := by
  induction x generalizing y with
  | nil =>
    cases y with
    | nil => rfl
    | cons c ys => simp at h
  | cons a xs ih =>
    cases y with
    | nil => simp at h
    | cons c ys =>
      have hlen : xs.length = ys.length := by simpa using h
      have hxs : Bytes xs := fun u hu => hx u (by simp [hu])
      have hys : Bytes ys := fun u hu => hy u (by simp [hu])
      have hXlt : value xs < 2 ^ (8 * xs.length) := by
        have := value_lt hxs; rwa [pow256] at this
      have hYlt : value ys < 2 ^ (8 * xs.length) := by
        have := value_lt hys; rw [pow256] at this; rwa [← hlen] at this
      have hXYlt : value xs ^^^ value ys < 2 ^ (8 * xs.length) :=
        Nat.xor_lt_two_pow hXlt hYlt
      show value ((a ^^^ c) :: sub xs ys) = value (a :: xs) ^^^ value (c :: ys)
      have e1 : value ((a ^^^ c) :: sub xs ys)
          = (a ^^^ c) * 2 ^ (8 * xs.length) + (value xs ^^^ value ys) := by
        simp only [value, sub_length hlen, ih hlen hxs hys, pow256]
      have e2 : value (a :: xs) = a * 2 ^ (8 * xs.length) + value xs := by
        simp only [value, pow256]
      have e3 : value (c :: ys) = c * 2 ^ (8 * xs.length) + value ys := by
        simp only [value, pow256, ← hlen]
      rw [e1, e2, e3, Nat.mul_comm (a ^^^ c), Nat.mul_comm a, Nat.mul_comm c,
        mul_add_lt_is_xor hXYlt, mul_add_lt_is_xor hXlt, mul_add_lt_is_xor hYlt,
        show (2 : Nat) ^ (8 * xs.length) * (a ^^^ c)
            = 2 ^ (8 * xs.length) * a ^^^ 2 ^ (8 * xs.length) * c by
          rw [Nat.mul_comm _ (a ^^^ c), Nat.mul_comm _ a, Nat.mul_comm _ c]
          exact xor_mul_two_pow a c _,
        xor_mix]

/-! ### Bridge: shl -/

theorem shlBytes_length (s : Nat) : ∀ arr : List Nat, (shlBytes s arr).length = arr.length := by
  intro arr
  induction arr with
  | nil => rfl
  | cons b rest ih =>
    cases rest with
    | nil => rfl
    | cons b2 rest2 => simpa [shlBytes] using ih

theorem shlBytes_bytes (s : Nat) : ∀ arr : List Nat, Bytes arr → Bytes (shlBytes s arr) := by
  intro arr
  induction arr with
  | nil => intro _ b hb; simp [shlBytes] at hb
  | cons b rest ih =>
    cases rest with
    | nil =>
      intro hB x hx
      simp only [shlBytes, List.mem_cons, List.not_mem_nil, or_false] at hx
      subst hx
      exact Nat.mod_lt _ (by norm_num)
    | cons b2 rest2 =>
      intro hB x hx
      simp only [shlBytes, List.mem_cons] at hx
      have h256 : (256 : Nat) = 2 ^ 8 := by norm_num
      rcases hx with rfl | hx
      · have h1 : (b <<< s) % 256 < 2 ^ 8 := by
          have := Nat.mod_lt (b <<< s) (show 0 < 256 by norm_num)
          omega
        have h2 : b2 >>> (8 - s) < 2 ^ 8 := by
          have hb2 := hB b2 (by simp)
          have : b2 >>> (8 - s) ≤ b2 := by
            rw [Nat.shiftRight_eq_div_pow]
            exact Nat.div_le_self _ _
          omega
        have := Nat.or_lt_two_pow h1 h2
        omega
      · exact ih (fun u hu => hB u (by simp [hu])) x hx

theorem mod_mul_decomp {X r c m : Nat} (hr : r < c) (hm : 0 < m) :
    (X * c + r) % (m * c) = (X % m) * c + r := by
  conv_lhs => rw [← Nat.div_add_mod X m]
  rw [Nat.add_mul, Nat.add_assoc,
    show m * (X / m) * c = X / m * (m * c) by ring,
    Nat.mul_comm (X / m), Nat.mul_add_mod]
  apply Nat.mod_eq_of_lt
  have h1 : X % m < m := Nat.mod_lt _ hm
  calc X % m * c + r < X % m * c + c := by omega
    _ = (X % m + 1) * c := by ring
    _ ≤ m * c := Nat.mul_le_mul_right c (by omega)

theorem value_shlBytes (s : Nat) (hs : s < 8) :
    ∀ arr : List Nat, Bytes arr →
      value (shlBytes s arr) = (value arr * 2 ^ s) % 2 ^ (8 * arr.length) := by
  intro arr
  induction arr with
  | nil => intro _; simp [shlBytes, value]
  | cons b rest ih =>
    cases rest with
    | nil =>
      intro hB
      show value [(b <<< s) % 256] = (value [b] * 2 ^ s) % 2 ^ (8 * 1)
      have h1 : value [(b <<< s) % 256] = (b <<< s) % 256 := by simp [value]
      have h2 : value [b] = b := by simp [value]
      rw [h1, h2, Nat.shiftLeft_eq]
      norm_num
    | cons b2 rest2 =>
      intro hB
      have hb : b < 256 := hB b (by simp)
      have hb2 : b2 < 256 := hB b2 (by simp)
      have hBt : Bytes (b2 :: rest2) := fun u hu => hB u (List.mem_cons_of_mem b hu)
      set L := (b2 :: rest2).length with hL
      set W := value (b2 :: rest2) with hW
      set R := value rest2 with hR
      have hL1 : L = rest2.length + 1 := by simp [hL]
      have hWlt : W < 2 ^ (8 * L) := by
        have := value_lt hBt
        rwa [pow256] at this
      have hRlt : R < 2 ^ (8 * rest2.length) := by
        have := value_lt fun u hu => hBt u (List.mem_cons_of_mem b2 hu)
        rwa [pow256] at this
      have hpow8 : (256 : Nat) = 2 ^ (8 - s) * 2 ^ s := by
        rw [← pow_add, (by omega : 8 - s + s = 8)]
        norm_num
      have f1 : (b <<< s) % 256 = b % 2 ^ (8 - s) * 2 ^ s := by
        rw [Nat.shiftLeft_eq, hpow8, Nat.mul_mod_mul_right]
      have f2 : b2 >>> (8 - s) < 2 ^ s := by
        rw [Nat.shiftRight_eq_div_pow]
        rw [Nat.div_lt_iff_lt_mul (Nat.two_pow_pos _)]
        calc b2 < 256 := hb2
          _ = 2 ^ s * 2 ^ (8 - s) := by
            rw [← pow_add, (by omega : s + (8 - s) = 8)]
            norm_num
      have f3 : ((b <<< s) % 256) ||| (b2 >>> (8 - s))
          = b % 2 ^ (8 - s) * 2 ^ s + b2 >>> (8 - s) := by
        rw [f1, Nat.mul_comm (b % 2 ^ (8 - s)), Nat.mul_add_lt_is_or f2,
          Nat.mul_comm ((2 : Nat) ^ s)]
      have f5 : W = b2 * 2 ^ (8 * rest2.length) + R := by
        rw [hW, show value (b2 :: rest2) = b2 * 256 ^ rest2.length + value rest2 from rfl,
          pow256]
      have f6 : W * 2 ^ s / 2 ^ (8 * L) = b2 >>> (8 - s) := by
        rw [Nat.shiftRight_eq_div_pow]
        have e1 : (2 : Nat) ^ (8 * L) = 2 ^ s * (2 ^ (8 * rest2.length) * 2 ^ (8 - s)) := by
          rw [← pow_add, ← pow_add]
          congr 1
          omega
        rw [e1, Nat.mul_comm W, Nat.mul_div_mul_left _ _ (Nat.two_pow_pos s),
          ← Nat.div_div_eq_div_mul, f5, Nat.mul_comm b2,
          Nat.mul_add_div (Nat.two_pow_pos _), Nat.div_eq_of_lt hRlt, Nat.add_zero]
      have f7 : W * 2 ^ s
          = b2 >>> (8 - s) * 2 ^ (8 * L) + W * 2 ^ s % 2 ^ (8 * L) := by
        conv_lhs => rw [← Nat.div_add_mod (W * 2 ^ s) (2 ^ (8 * L))]
        rw [f6, Nat.mul_comm]
      have f8 : (b * 2 ^ s + b2 >>> (8 - s)) % 2 ^ 8
          = b % 2 ^ (8 - s) * 2 ^ s + b2 >>> (8 - s) := by
        have e1 : b * 2 ^ s % 2 ^ 8 = b % 2 ^ (8 - s) * 2 ^ s := by
          have h0 := f1
          rwa [Nat.shiftLeft_eq, hpow8, ← pow_add,
            (by omega : 8 - s + s = 8)] at h0
        have e2 : b % 2 ^ (8 - s) * 2 ^ s + b2 >>> (8 - s) < 2 ^ 8 := by
          have h1 : b % 2 ^ (8 - s) < 2 ^ (8 - s) := Nat.mod_lt _ (Nat.two_pow_pos _)
          have h2 : (b % 2 ^ (8 - s) + 1) * 2 ^ s ≤ 2 ^ (8 - s) * 2 ^ s :=
            Nat.mul_le_mul_right _ (by omega)
          have h3 : (2 : Nat) ^ (8 - s) * 2 ^ s = 2 ^ 8 := by
            rw [← pow_add]
            congr 1
            omega
          have h4 := f2
          nlinarith
        calc (b * 2 ^ s + b2 >>> (8 - s)) % 2 ^ 8
            = (b * 2 ^ s % 2 ^ 8 + b2 >>> (8 - s) % 2 ^ 8) % 2 ^ 8 := by
              rw [Nat.add_mod]
          _ = (b % 2 ^ (8 - s) * 2 ^ s + b2 >>> (8 - s)) % 2 ^ 8 := by
              have hs8 : (2 : Nat) ^ s < 2 ^ 8 := Nat.pow_lt_pow_right (by norm_num) hs
              rw [e1, Nat.mod_eq_of_lt (lt_trans f2 hs8)]
          _ = b % 2 ^ (8 - s) * 2 ^ s + b2 >>> (8 - s) := Nat.mod_eq_of_lt e2
      show value ((((b <<< s) % 256) ||| (b2 >>> (8 - s))) :: shlBytes s (b2 :: rest2))
          = (value (b :: b2 :: rest2) * 2 ^ s) % 2 ^ (8 * (b :: b2 :: rest2).length)
      have hlhs : value ((((b <<< s) % 256) ||| (b2 >>> (8 - s))) :: shlBytes s (b2 :: rest2))
          = (((b <<< s) % 256) ||| (b2 >>> (8 - s))) * 2 ^ (8 * L)
            + W * 2 ^ s % 2 ^ (8 * L) := by
        rw [show value ((((b <<< s) % 256) ||| (b2 >>> (8 - s))) :: shlBytes s (b2 :: rest2))
            = (((b <<< s) % 256) ||| (b2 >>> (8 - s))) * 256 ^ (shlBytes s (b2 :: rest2)).length
              + value (shlBytes s (b2 :: rest2)) from rfl,
          shlBytes_length, pow256, ih hBt]
      have hvtop : value (b :: b2 :: rest2) = b * 2 ^ (8 * L) + W := by
        rw [show value (b :: b2 :: rest2) = b * 256 ^ (b2 :: rest2).length
            + value (b2 :: rest2) from rfl, pow256]
      have hlen2 : 8 * (b :: b2 :: rest2).length = 8 * L + 8 := by
        simp only [List.length_cons]
        omega
      rw [hlhs, hvtop, hlen2, f3]
      have hrhs : (b * 2 ^ (8 * L) + W) * 2 ^ s
          = (b * 2 ^ s + b2 >>> (8 - s)) * 2 ^ (8 * L) + W * 2 ^ s % 2 ^ (8 * L) := by
        calc (b * 2 ^ (8 * L) + W) * 2 ^ s
            = b * 2 ^ s * 2 ^ (8 * L) + W * 2 ^ s := by ring
          _ = b * 2 ^ s * 2 ^ (8 * L)
              + (b2 >>> (8 - s) * 2 ^ (8 * L) + W * 2 ^ s % 2 ^ (8 * L)) := by rw [← f7]
          _ = (b * 2 ^ s + b2 >>> (8 - s)) * 2 ^ (8 * L) + W * 2 ^ s % 2 ^ (8 * L) := by
              ring
      rw [hrhs, show (2 : Nat) ^ (8 * L + 8) = 2 ^ 8 * 2 ^ (8 * L) by
          rw [← pow_add]
          congr 1
          omega,
        mod_mul_decomp (Nat.mod_lt _ (Nat.two_pow_pos _)) (by norm_num), f8]

theorem shl_length (p : List Nat) (k : Nat) : (shl p k).length = p.length := by
  unfold shl
  by_cases h : k % 8 = 0
  · simp [h, rotate_left_length]
  · have hb : (k % 8 != 0) = true := by simpa using h
    simp [hb, shlBytes_length, rotate_left_length]

theorem shl_bytes {p : List Nat} (k : Nat) (hB : Bytes p) : Bytes (shl p k) := by
  unfold shl
  by_cases h : k % 8 = 0
  · simpa [h] using rotate_left_bytes (k / 8) hB
  · have hb : (k % 8 != 0) = true := by simpa using h
    simpa [hb] using shlBytes_bytes (k % 8) _ (rotate_left_bytes (k / 8) hB)

theorem value_shl {p : List Nat} (k : Nat) (hB : Bytes p) :
    value (shl p k) = (value p <<< k) % 2 ^ (8 * p.length) := by
  unfold shl
  have hrot := value_rotate_left (k / 8) hB
  have hrotB := rotate_left_bytes (k / 8) hB
  have hrotL := rotate_left_length p (k / 8)
  rw [Nat.shiftLeft_eq]
  by_cases h : k % 8 = 0
  · simp only [h, bne_self_eq_false, Bool.false_eq_true, if_false]
    rw [hrot, show 8 * (k / 8) = k by omega]
  · have hb : (k % 8 != 0) = true := by simpa using h
    simp only [hb, if_true]
    rw [value_shlBytes (k % 8) (by omega) _ hrotB, hrotL, hrot, Nat.mod_mul_mod,
      Nat.mul_assoc, ← pow_add, show 8 * (k / 8) + k % 8 = k by omega]

/-! ### Bridge: bit_len -/

theorem firstSetBit_zero : firstSetBit 0 = none := by decide

set_option maxRecDepth 40000 in
theorem firstSetBit_spec : ∀ l, l < 8 → ∀ b, b < 256 → 2 ^ l ≤ b → b < 2 ^ (l + 1) →
    firstSetBit b = some (7 - l) := by decide

theorem firstSetBit_log {b : Nat} (hb : b < 256) (hb0 : b ≠ 0) :
    firstSetBit b = some (7 - Nat.log 2 b) := by
  have hl := log2_bounds hb0
  have h28 : (256 : Nat) = 2 ^ 8 := by norm_num
  have hl8 : Nat.log 2 b < 8 := Nat.log_lt_of_lt_pow hb0 (h28 ▸ hb)
  exact firstSetBit_spec _ hl8 b hb hl.1 hl.2

theorem bit_lenGo_spec : ∀ (arr : List Nat) (j : Nat), Bytes arr →
    bit_lenGo (j + arr.length) arr j = Nat.log 2 (value arr) := by
  intro arr
  induction arr with
  | nil =>
    intro j _
    simp [bit_lenGo, value]
  | cons b rest ih =>
    intro j hB
    have hBr : Bytes rest := fun u hu => hB u (List.mem_cons_of_mem b hu)
    by_cases hb0 : b = 0
    · subst hb0
      have h1 : value ((0 : Nat) :: rest) = value rest := by simp [value]
      have h2 := ih (j + 1) hBr
      calc bit_lenGo (j + ((0 : Nat) :: rest).length) (0 :: rest) j
          = bit_lenGo (j + 1 + rest.length) rest (j + 1) := by
            rw [show j + ((0 : Nat) :: rest).length = j + 1 + rest.length by
              simp only [List.length_cons]; omega]
            simp [bit_lenGo, firstSetBit_zero]
        _ = Nat.log 2 (value rest) := h2
        _ = Nat.log 2 (value ((0 : Nat) :: rest)) := by rw [h1]
    · have hb : b < 256 := hB b (by simp)
      have hfs := firstSetBit_log hb hb0
      have h28 : (256 : Nat) = 2 ^ 8 := by norm_num
      have hl8 : Nat.log 2 b < 8 := Nat.log_lt_of_lt_pow hb0 (h28 ▸ hb)
      have hval : value (b :: rest) = b * 2 ^ (8 * rest.length) + value rest := by
        rw [show value (b :: rest) = b * 256 ^ rest.length + value rest from rfl, pow256]
      have hRlt : value rest < 2 ^ (8 * rest.length) := by
        have := value_lt hBr
        rwa [pow256] at this
      have hlog : Nat.log 2 (value (b :: rest))
          = 8 * rest.length + Nat.log 2 b := by
        rw [hval]
        apply Nat.log_eq_of_pow_le_of_lt_pow
        · calc 2 ^ (8 * rest.length + Nat.log 2 b)
              = 2 ^ Nat.log 2 b * 2 ^ (8 * rest.length) := by
                rw [← pow_add]
                congr 1
                omega
            _ ≤ b * 2 ^ (8 * rest.length) :=
                Nat.mul_le_mul_right _ (log2_bounds hb0).1
            _ ≤ b * 2 ^ (8 * rest.length) + value rest := Nat.le_add_right _ _
        · calc b * 2 ^ (8 * rest.length) + value rest
              < (b + 1) * 2 ^ (8 * rest.length) := by
                rw [Nat.add_mul, Nat.one_mul]
                omega
            _ ≤ 2 ^ (Nat.log 2 b + 1) * 2 ^ (8 * rest.length) :=
                Nat.mul_le_mul_right _ (log2_bounds hb0).2
            _ = 2 ^ (8 * rest.length + Nat.log 2 b + 1) := by
                rw [← pow_add]
                congr 1
                omega
      rw [show bit_lenGo (j + (b :: rest).length) (b :: rest) j
          = (j + (b :: rest).length) * 8 - (j * 8 + (7 - Nat.log 2 b)) - 1 by
            simp [bit_lenGo, hfs]]
      rw [hlog]
      simp only [List.length_cons]
      omega

theorem bit_len_eq_log {arr : List Nat} (hB : Bytes arr) :
    bit_len arr = Nat.log 2 (value arr) := by
  have h := bit_lenGo_spec arr 0 hB
  rw [Nat.zero_add] at h
  exact h

/-! ### Bridge: is_more_sign -/

theorem and_one_shiftLeft_bne (a k : Nat) : (a &&& (1 <<< k) != 0) = a.testBit k := by
  rw [Nat.one_shiftLeft, Nat.and_two_pow]
  cases h : a.testBit k
  · simp
  · simp [Nat.pos_iff_ne_zero]

theorem testBit_div_mod_zero {a k : Nat} (h : a.testBit k = false) : a / 2 ^ k % 2 = 0 := by
  rw [Nat.testBit_to_div_mod] at h
  simp only [decide_eq_false_iff_not] at h
  omega

theorem testBit_div_mod_one {a k : Nat} (h : a.testBit k = true) : a / 2 ^ k % 2 = 1 := by
  rw [Nat.testBit_to_div_mod] at h
  simpa using h

theorem is_more_sign_bits_mod : ∀ k a b, a % 2 ^ k ≠ b % 2 ^ k →
    is_more_sign_bits a b k = decide (b % 2 ^ k < a % 2 ^ k) := by
  intro k
  induction k with
  | zero => intro a b hne; simp [Nat.mod_one] at hne
  | succ k ih =>
    intro a b hne
    have hamod : a % 2 ^ (k + 1) = a % 2 ^ k + 2 ^ k * (a / 2 ^ k % 2) := by
      rw [pow_succ, Nat.mod_mul]
    have hbmod : b % 2 ^ (k + 1) = b % 2 ^ k + 2 ^ k * (b / 2 ^ k % 2) := by
      rw [pow_succ, Nat.mod_mul]
    have hra : a % 2 ^ k < 2 ^ k := Nat.mod_lt _ (Nat.two_pow_pos k)
    have hrb : b % 2 ^ k < 2 ^ k := Nat.mod_lt _ (Nat.two_pow_pos k)
    simp only [is_more_sign_bits, and_one_shiftLeft_bne]
    cases hta : a.testBit k <;> cases htb : b.testBit k
    · have ha2 := testBit_div_mod_zero hta
      have hb2 := testBit_div_mod_zero htb
      have hne' : a % 2 ^ k ≠ b % 2 ^ k := by
        intro hc
        exact hne (by rw [hamod, hbmod, hc, ha2, hb2])
      rw [if_pos rfl, ih a b hne', decide_eq_decide, hamod, hbmod, ha2, hb2]
      omega
    · have ha2 := testBit_div_mod_zero hta
      have hb2 := testBit_div_mod_one htb
      rw [if_neg (by simp)]
      symm
      rw [decide_eq_false_iff_not, hamod, hbmod, ha2, hb2]
      omega
    · have ha2 := testBit_div_mod_one hta
      have hb2 := testBit_div_mod_zero htb
      rw [if_neg (by simp)]
      symm
      rw [decide_eq_true_eq, hamod, hbmod, ha2, hb2]
      omega
    · have ha2 := testBit_div_mod_one hta
      have hb2 := testBit_div_mod_one htb
      have hne' : a % 2 ^ k ≠ b % 2 ^ k := by
        intro hc
        exact hne (by rw [hamod, hbmod, hc, ha2, hb2])
      rw [if_pos rfl, ih a b hne', decide_eq_decide, hamod, hbmod, ha2, hb2]
      omega

theorem is_more_sign_bits_spec {a b : Nat} (ha : a < 256) (hb : b < 256) (hne : a ≠ b) :
    is_more_sign_bits a b 8 = decide (b < a) := by
  have h256 : (256 : Nat) = 2 ^ 8 := by norm_num
  have ha' : a % 2 ^ 8 = a := Nat.mod_eq_of_lt (h256 ▸ ha)
  have hb' : b % 2 ^ 8 = b := Nat.mod_eq_of_lt (h256 ▸ hb)
  have h := is_more_sign_bits_mod 8 a b (by rw [ha', hb']; exact hne)
  rwa [ha', hb'] at h

theorem value_head_lt {a c : Nat} {xs ys : List Nat} (hlen : xs.length = ys.length)
    (hys : Bytes ys) (hca : c < a) : value (c :: ys) < value (a :: xs) := by
  have hYlt : value ys < 2 ^ (8 * xs.length) := by
    have := value_lt hys
    rw [pow256] at this
    rwa [← hlen] at this
  have e1 : value (a :: xs) = a * 2 ^ (8 * xs.length) + value xs := by
    rw [show value (a :: xs) = a * 256 ^ xs.length + value xs from rfl, pow256]
  have e2 : value (c :: ys) = c * 2 ^ (8 * xs.length) + value ys := by
    rw [show value (c :: ys) = c * 256 ^ ys.length + value ys from rfl, pow256, ← hlen]
  rw [e1, e2]
  have h1 : c * 2 ^ (8 * xs.length) + value ys < (c + 1) * 2 ^ (8 * xs.length) := by
    rw [Nat.add_mul, Nat.one_mul]
    omega
  have h2 : (c + 1) * 2 ^ (8 * xs.length) ≤ a * 2 ^ (8 * xs.length) :=
    Nat.mul_le_mul_right _ (by omega)
  have h3 : a * 2 ^ (8 * xs.length) ≤ a * 2 ^ (8 * xs.length) + value xs :=
    Nat.le_add_right _ _
  omega

theorem is_more_sign_spec : ∀ (x y : List Nat), x.length = y.length → Bytes x → Bytes y →
    is_more_sign x y = decide (value y < value x) := by
  intro x
  induction x with
  | nil =>
    intro y h _ _
    have hy : y = [] := List.eq_nil_of_length_eq_zero h.symm
    subst hy
    simp [is_more_sign, value]
  | cons a xs ih =>
    intro y h hx hy
    cases y with
    | nil => simp at h
    | cons c ys =>
      have hlen : xs.length = ys.length := by simpa using h
      have hxs : Bytes xs := fun u hu => hx u (List.mem_cons_of_mem a hu)
      have hys : Bytes ys := fun u hu => hy u (List.mem_cons_of_mem c hu)
      by_cases hac : a = c
      · subst hac
        rw [show is_more_sign (a :: xs) (a :: ys) = is_more_sign xs ys by
          simp [is_more_sign]]
        rw [ih ys hlen hxs hys, decide_eq_decide]
        have e1 : value (a :: xs) = a * 2 ^ (8 * xs.length) + value xs := by
          rw [show value (a :: xs) = a * 256 ^ xs.length + value xs from rfl, pow256]
        have e2 : value (a :: ys) = a * 2 ^ (8 * xs.length) + value ys := by
          rw [show value (a :: ys) = a * 256 ^ ys.length + value ys from rfl, pow256, ← hlen]
        rw [e1, e2, Nat.add_lt_add_iff_left]
      · rw [show is_more_sign (a :: xs) (c :: ys) = is_more_sign_bits a c 8 by
          simp [is_more_sign, hac]]
        rw [is_more_sign_bits_spec (hx a (by simp)) (hy c (by simp)) hac,
          decide_eq_decide]
        constructor
        · intro hca
          exact value_head_lt hlen hys hca
        · intro hv
          by_contra hca
          push_neg at hca
          have hac2 : a < c := by omega
          have := value_head_lt hlen.symm hxs hac2
          omega

/-! ### Simulation: the array division loop follows the numeric one -/

theorem divLoop_sim {N : Nat} {d : List Nat} (hdl : d.length = N) (hdB : Bytes d) :
    ∀ fuel (x : List Nat), x.length = N → Bytes x →
      (divLoop fuel x d).map value = divLoopNum N fuel (value x) (value d) ∧
      ∀ r, divLoop fuel x d = some r → r.length = N ∧ Bytes r := by
  intro fuel
  induction fuel with
  | zero =>
    intro x hxl hxB
    exact ⟨rfl, fun r hr => by simp [divLoop] at hr⟩
  | succ fuel ih =>
    intro x hxl hxB
    have hguard : is_more_sign d x = decide (value x < value d) :=
      is_more_sign_spec d x (by rw [hdl, hxl]) hdB hxB
    by_cases hlt : value x < value d
    · have hg : is_more_sign d x = true := by
        rw [hguard]
        simpa using hlt
      rw [show divLoop (fuel + 1) x d = some x by rw [divLoop, if_pos hg],
        show divLoopNum N (fuel + 1) (value x) (value d) = some (value x) by
          rw [divLoopNum, if_pos hlt]]
      exact ⟨rfl, fun r hr => by cases hr; exact ⟨hxl, hxB⟩⟩
    · have hg : is_more_sign d x = false := by
        rw [hguard]
        simpa using hlt
      have hstep : divLoop (fuel + 1) x d
          = divLoop fuel (sub x (shl d (bit_len x - bit_len d))) d := by
        rw [divLoop, if_neg (by simp [hg])]
      have hstepn : divLoopNum N (fuel + 1) (value x) (value d)
          = divLoopNum N fuel
            (value x ^^^ (value d <<< (Nat.log 2 (value x) - Nat.log 2 (value d)))
              % 2 ^ (8 * N)) (value d) := by
        rw [divLoopNum, if_neg hlt]
      have hshl : (shl d (bit_len x - bit_len d)).length = N := by
        rw [shl_length, hdl]
      have hsl : x.length = (shl d (bit_len x - bit_len d)).length := by
        rw [hshl, hxl]
      have hx' : (sub x (shl d (bit_len x - bit_len d))).length = N := by
        rw [sub_length hsl, hxl]
      have hx'B : Bytes (sub x (shl d (bit_len x - bit_len d))) :=
        sub_bytes _ _ hxB (shl_bytes _ hdB)
      have hval : value (sub x (shl d (bit_len x - bit_len d)))
          = value x ^^^ (value d <<< (Nat.log 2 (value x) - Nat.log 2 (value d)))
              % 2 ^ (8 * N) := by
        rw [value_sub hsl hxB (shl_bytes _ hdB), value_shl _ hdB, hdl,
          bit_len_eq_log hxB, bit_len_eq_log hdB]
      obtain ⟨ihm, ihp⟩ := ih _ hx' hx'B
      refine ⟨?_, ?_⟩
      · rw [hstep, hstepn, ihm, hval]
      · intro r hr
        rw [hstep] at hr
        exact ihp r hr

theorem div_sim {x d : List Nat} (hl : x.length = d.length) (hxB : Bytes x) (hdB : Bytes d) :
    (div x d).map value = divLoopNum x.length (8 * x.length + 1) (value x) (value d) ∧
      ∀ r, div x d = some r → r.length = x.length ∧ Bytes r :=
  divLoop_sim hl.symm hdB (8 * x.length + 1) x rfl hxB

/-! ### The public operations -/

theorem new_from_byte_spec {N : Nat} (hN : N ≠ 0) (g : Nat) :
    ∃ D, new_from_byte N g = some D ∧ D.length = N ∧ value D = g
      ∧ (g < 256 → Bytes D) := by
  cases N with
  | zero => exact absurd rfl hN
  | succ n =>
    refine ⟨List.replicate n 0 ++ [g], rfl, by simp, ?_, ?_⟩
    · rw [value_append, value_replicate_zero]
      simp [value]
    · intro hg u hu
      rcases List.mem_append.1 hu with h1 | h1
      · have := List.eq_of_mem_replicate h1
        omega
      · have : u = g := by simpa using h1
        omega

theorem get_last_of_value_lt : ∀ (arr : List Nat), arr ≠ [] → Bytes arr →
    value arr < 256 → arr.get? (arr.length - 1) = some (value arr) := by
  intro arr
  induction arr with
  | nil => intro h; exact absurd rfl h
  | cons b rest ih =>
    intro _ hB hv
    cases rest with
    | nil => simp [value]
    | cons b2 rest2 =>
      have hlen : 1 ≤ (b2 :: rest2).length := by simp
      have hb0 : b = 0 := by
        by_contra hb
        have hb1 : 1 ≤ b := Nat.pos_of_ne_zero hb
        have h1 : (256 : Nat) ≤ 256 ^ (b2 :: rest2).length := by
          calc (256 : Nat) = 256 ^ 1 := (pow_one _).symm
            _ ≤ 256 ^ (b2 :: rest2).length := Nat.pow_le_pow_right (by norm_num) hlen
        have h2 : value (b :: b2 :: rest2)
            = b * 256 ^ (b2 :: rest2).length + value (b2 :: rest2) := rfl
        have h3 : 256 ^ (b2 :: rest2).length ≤ b * 256 ^ (b2 :: rest2).length :=
          Nat.le_mul_of_pos_left _ hb1
        omega
      subst hb0
      have hveq : value ((0 : Nat) :: b2 :: rest2) = value (b2 :: rest2) := by
        simp [value]
      have ih' := ih (by simp) (fun u hu => hB u (List.mem_cons_of_mem _ hu))
        (by rw [← hveq]; exact hv)
      have hidx : ((0 : Nat) :: b2 :: rest2).length - 1 = ((b2 :: rest2).length - 1) + 1 := by
        simp
      rw [hidx, List.get?_cons_succ, hveq]
      exact ih'

theorem get_of_value_eq_zero : ∀ (arr : List Nat) (i : Nat), value arr = 0 →
    i < arr.length → arr.get? i = some 0 := by
  intro arr
  induction arr with
  | nil => intro i _ hi; simp at hi
  | cons b rest ih =>
    intro i hv hi
    have hall := value_eq_zero_iff.1 hv
    cases i with
    | zero =>
      have : b = 0 := hall b (by simp)
      simp [this]
    | succ i =>
      rw [List.get?_cons_succ]
      refine ih i (value_eq_zero_iff.2 fun u hu => hall u (List.mem_cons_of_mem _ hu)) ?_
      simpa using hi

theorem fetch_crc8_spec {data : List Nat} {g : Nat} (hd : data ≠ []) (hB : Bytes data)
    (hg0 : g ≠ 0) (hg : g < 256) :
    ∃ v, fetch_crc8 data g = some v ∧ v < g ∧ ∃ p, v = value data ^^^ clmul p g := by
  have hN : data.length ≠ 0 := by
    cases data with
    | nil => exact absurd rfl hd
    | cons a t => simp
  obtain ⟨D, hD, hDl, hDv, hDB⟩ := new_from_byte_spec hN g
  have hdataW : value data < 2 ^ (8 * data.length) := by
    have := value_lt hB
    rwa [pow256] at this
  obtain ⟨v, hv⟩ := divLoopNum_total (w := data.length) hg0 (8 * data.length)
    (value data) hdataW hdataW
  obtain ⟨hsim, hpres⟩ := div_sim (x := data) (d := D) (by rw [hDl]) hB (hDB hg)
  rw [hDv, hv] at hsim
  obtain ⟨r, hr, hrv⟩ : ∃ r, div data D = some r ∧ value r = v := by
    cases hdd : div data D with
    | none => rw [hdd] at hsim; simp at hsim
    | some r =>
      rw [hdd] at hsim
      refine ⟨r, rfl, ?_⟩
      simpa using hsim
  obtain ⟨hrl, hrB⟩ := hpres r hr
  obtain ⟨hvd, _, p, hp⟩ := divLoopNum_spec (w := data.length) hg0 (8 * data.length + 1)
    (value data) v hdataW (by rw [← hDv]; rw [hDv]; exact hv)
  refine ⟨v, ?_, hvd, p, hp⟩
  have hget : r.get? (data.length - 1) = some v := by
    rw [← hrl]
    rw [← hrv]
    exact get_last_of_value_lt r (by
        intro hnil
        rw [hnil] at hrl
        simp at hrl
        exact hN hrl.symm)
      hrB (by omega)
  rw [fetch_crc8, hD]
  show (div data D).bind (fun result_arr => result_arr.get? (data.length - 1)) = some v
  rw [hr]
  exact hget

theorem fetch_crc8_isMul {data : List Nat} {g : Nat} (hd : data ≠ []) (hB : Bytes data)
    (hg0 : g ≠ 0) (hg : g < 256) (hm : IsMul g (value data)) :
    fetch_crc8 data g = some 0 := by
  have hN : data.length ≠ 0 := by
    cases data with
    | nil => exact absurd rfl hd
    | cons a t => simp
  obtain ⟨D, hD, hDl, hDv, hDB⟩ := new_from_byte_spec hN g
  have hdataW : value data < 2 ^ (8 * data.length) := by
    have := value_lt hB
    rwa [pow256] at this
  have hzero := divLoopNum_isMul (w := data.length) hg0 (8 * data.length)
    (value data) hdataW hdataW hm
  obtain ⟨hsim, hpres⟩ := div_sim (x := data) (d := D) (by rw [hDl]) hB (hDB hg)
  rw [hDv, hzero] at hsim
  obtain ⟨r, hr, hrv⟩ : ∃ r, div data D = some r ∧ value r = 0 := by
    cases hdd : div data D with
    | none => rw [hdd] at hsim; simp at hsim
    | some r =>
      rw [hdd] at hsim
      refine ⟨r, rfl, ?_⟩
      simpa using hsim
  obtain ⟨hrl, hrB⟩ := hpres r hr
  have hget : r.get? (data.length - 1) = some 0 :=
    get_of_value_eq_zero r (data.length - 1) hrv (by rw [hrl]; omega)
  rw [fetch_crc8, hD]
  show (div data D).bind (fun result_arr => result_arr.get? (data.length - 1)) = some 0
  rw [hr]
  exact hget

theorem set_last_concat : ∀ (xs : List Nat) (b v : Nat),
    (xs ++ [b]).set xs.length v = xs ++ [v] := by
  intro xs
  induction xs with
  | nil => intro b v; rfl
  | cons a t ih =>
    intro b v
    show a :: (t ++ [b]).set t.length v = a :: (t ++ [v])
    rw [ih]

theorem insert_crc8_eq {data : List Nat} (hd : data ≠ []) (g : Nat) :
    insert_crc8 data g = (fetch_crc8 (data.set (data.length - 1) 0) g).map
      fun r => (data.set (data.length - 1) 0).set
        ((data.set (data.length - 1) 0).length - 1) (g ^^^ r) := by
  cases data with
  | nil => exact absurd rfl hd
  | cons a t => rfl

theorem insert_crc8_spec {data : List Nat} {g : Nat} (hd : data ≠ []) (hB : Bytes data)
    (hg0 : g ≠ 0) (hg : g < 256) :
    ∃ b', insert_crc8 data g = some b' ∧ b'.length = data.length ∧ Bytes b'
      ∧ IsMul g (value b') := by
  obtain ⟨front, lb, rfl⟩ : ∃ front lb, data = front ++ [lb] :=
    ⟨data.dropLast, data.getLast hd, (List.dropLast_append_getLast hd).symm⟩
  have hfl : (front ++ [lb]).length - 1 = front.length := by simp
  have hset0 : (front ++ [lb]).set ((front ++ [lb]).length - 1) 0 = front ++ [0] := by
    rw [hfl]
    exact set_last_concat front lb 0
  have hfB : Bytes front := fun u hu => hB u (List.mem_append_left _ hu)
  have h0B : Bytes (front ++ [0]) := by
    intro u hu
    rcases List.mem_append.1 hu with h1 | h1
    · exact hfB u h1
    · have : u = 0 := by simpa using h1
      omega
  obtain ⟨r, hr, hrg, p, hp⟩ := @fetch_crc8_spec (front ++ [0]) g (by simp) h0B hg0 hg
  have hblen : (front ++ [0]).length - 1 = front.length := by simp
  have hset1 : (front ++ [0]).set ((front ++ [0]).length - 1) (g ^^^ r)
      = front ++ [g ^^^ r] := by
    rw [hblen]
    exact set_last_concat front 0 (g ^^^ r)
  have hgr : g ^^^ r < 256 := by
    have h8 : (256 : Nat) = 2 ^ 8 := by norm_num
    have h1 : g < 2 ^ 8 := by omega
    have h2 : r < 2 ^ 8 := by omega
    have := Nat.xor_lt_two_pow h1 h2
    omega
  refine ⟨front ++ [g ^^^ r], ?_, by simp, ?_, ?_⟩
  · rw [insert_crc8_eq (by simp) g, hset0, hr]
    simp only [Option.map_some', hset1]
  · intro u hu
    rcases List.mem_append.1 hu with h1 | h1
    · exact hfB u h1
    · have : u = g ^^^ r := by simpa using h1
      omega
  · have hv0 : value (front ++ [0]) = 2 ^ 8 * value front := by
      rw [value_append]
      show value front * 256 ^ 1 + value [0] = 2 ^ 8 * value front
      simp [value]
      ring
    have hvb : value (front ++ [g ^^^ r]) = 2 ^ 8 * value front + (g ^^^ r) := by
      rw [value_append]
      show value front * 256 ^ 1 + value [g ^^^ r] = 2 ^ 8 * value front + (g ^^^ r)
      simp [value]
      ring
    have hxor : value (front ++ [g ^^^ r]) = 2 ^ 8 * value front ^^^ g ^^^ r := by
      rw [hvb, mul_add_lt_is_xor hgr, Nat.xor_assoc]
    have hp' : 2 ^ 8 * value front ^^^ r = clmul p g := by
      rw [hp, hv0, ← Nat.xor_assoc, Nat.xor_self, Nat.zero_xor]
    have hfinal : value (front ++ [g ^^^ r]) = clmul p g ^^^ g <<< 0 := by
      rw [hxor, Nat.shiftLeft_zero, ← hp']
      rw [Nat.xor_assoc, Nat.xor_comm g r, ← Nat.xor_assoc]
    rw [hfinal]
    exact isMul_xor_shift ⟨p, rfl⟩ 0

/-! ### The claims -/

/-- C1 counterexample: the claim quantifies over every generator byte, but with
generator 0 the divisor polynomial is all-zero and the Rust division loop never
terminates, so insert_crc8 on the buffer [0x00] with generator 0 never returns a
buffer at all (embedded: none), and the round-trip property fails. -/
theorem C1_counterexample : insert_crc8 [0] 0 = none
    ∧ ¬ ∃ b', insert_crc8 [0] 0 = some b' ∧ has_valid_crc8 b' 0 = some true := by
  refine ⟨by decide, ?_⟩
  rintro ⟨b', hb', -⟩
  rw [show insert_crc8 [0] 0 = none by decide] at hb'
  cases hb'

/-- C1 (amended: the generator byte must be nonzero; an all-zero divisor makes
the division loop spin forever): for every nonzero generator byte g and every
nonempty byte buffer (last byte arbitrary), inserting the CRC and then checking
it succeeds, equivalently fetch_crc8 of the signed buffer is 0. -/
theorem C1_round_trip {data : List Nat} {g : Nat} (hd : data ≠ []) (hB : Bytes data)
    (hg0 : g ≠ 0) (hg : g < 256) :
    ∃ b', insert_crc8 data g = some b' ∧ has_valid_crc8 b' g = some true
      ∧ fetch_crc8 b' g = some 0 := by
  obtain ⟨b', hins, hlen, hbB, hmul⟩ := insert_crc8_spec hd hB hg0 hg
  have hb'ne : b' ≠ [] := by
    intro h
    rw [h] at hlen
    cases data with
    | nil => exact hd rfl
    | cons a t => simp at hlen
  have hf := fetch_crc8_isMul hb'ne hbB hg0 hg hmul
  refine ⟨b', hins, ?_, hf⟩
  rw [has_valid_crc8, hf]
  rfl

/-- C1 witness: the round-trip theorem applied to the crate's own test vector
[0x02, 0x30, 0xf0, 0x00] with generator 0xA6. -/
theorem C1_round_trip_witness :
    ([0x02, 0x30, 0xf0, 0x00] : List Nat) ≠ [] ∧ (0xA6 : Nat) ≠ 0
      ∧ ∃ b', insert_crc8 [0x02, 0x30, 0xf0, 0x00] 0xA6 = some b'
          ∧ has_valid_crc8 b' 0xA6 = some true ∧ fetch_crc8 b' 0xA6 = some 0 :=
  ⟨by simp, by decide,
    C1_round_trip (by simp) (by intro b hb; simp at hb; omega) (by decide) (by decide)⟩

/-- C2 counterexample: dividing the one-byte polynomial [0x1e] by the nonzero
one-byte polynomial [0x0b] yields the remainder [0x08], whose bit_len (3) is
equal to, not strictly less than, the divisor's bit_len (3): the loop exits on
the numeric comparison is_more_sign, which can stop one XOR short of reducing
the degree below the divisor's. -/
theorem C2_counterexample : div [0x1e] [0x0b] = some [0x08] ∧ value [0x0b] ≠ 0
    ∧ ¬ bit_len [0x08] < bit_len [0x0b] := by decide

/-- C2 (amended): the remainder returned by the division is numerically smaller
than the divisor (read as big-endian values), hence its bit_len is at most the
divisor's bit_len; equality of bit_lens is possible, strict decrease is not
guaranteed. -/
theorem C2_remainder_below_divisor {x d r : List Nat} (hl : x.length = d.length)
    (hxB : Bytes x) (hdB : Bytes d) (hd0 : value d ≠ 0) (hr : div x d = some r) :
    value r < value d ∧ bit_len r ≤ bit_len d := by
  obtain ⟨hsim, hpres⟩ := div_sim hl hxB hdB
  rw [hr] at hsim
  simp only [Option.map_some'] at hsim
  obtain ⟨hrl, hrB⟩ := hpres r hr
  have hxW : value x < 2 ^ (8 * x.length) := by
    have := value_lt hxB
    rwa [pow256] at this
  obtain ⟨h1, -, -⟩ := divLoopNum_spec (w := x.length) hd0 (8 * x.length + 1)
    (value x) (value r) hxW hsim.symm
  refine ⟨h1, ?_⟩
  rw [bit_len_eq_log hrB, bit_len_eq_log hdB]
  exact Nat.log_mono_right (le_of_lt h1)

/-- C2 witness: the amended remainder bound at the counterexample input. -/
theorem C2_remainder_below_divisor_witness :
    div [0x1e] [0x0b] = some [0x08]
      ∧ (value [0x08] < value [0x0b] ∧ bit_len [0x08] ≤ bit_len [0x0b]) :=
  ⟨by decide, C2_remainder_below_divisor (x := [0x1e]) rfl
    (by intro b hb; simp at hb; omega) (by intro b hb; simp at hb; omega)
    (by decide) (by decide)⟩

/-- C3: for equal-width polynomials with a nonzero divisor the division loop
terminates within 8 * N iterations: fuel 8 * N + 1 (allowing 8 * N executions of
the loop body) always suffices to reach the exit condition. -/
theorem C3_division_terminates {x d : List Nat} (hl : x.length = d.length)
    (hxB : Bytes x) (hdB : Bytes d) (hd0 : value d ≠ 0) :
    ∃ r, divLoop (8 * x.length + 1) x d = some r := by
  have hxW : value x < 2 ^ (8 * x.length) := by
    have := value_lt hxB
    rwa [pow256] at this
  obtain ⟨v, hv⟩ := divLoopNum_total (w := x.length) hd0 (8 * x.length) (value x) hxW hxW
  obtain ⟨hsim, -⟩ := div_sim hl hxB hdB
  rw [hv] at hsim
  cases hdd : div x d with
  | none => rw [hdd] at hsim; simp at hsim
  | some r => exact ⟨r, hdd⟩

/-- C3 witness: termination on the crate's division test vector. -/
theorem C3_division_terminates_witness :
    ∃ r, divLoop (8 * ([0x3f, 0x7e] : List Nat).length + 1) [0x3f, 0x7e] [0x01, 0x1b]
      = some r :=
  C3_division_terminates rfl (by intro b hb; simp at hb; omega)
    (by intro b hb; simp at hb; omega) (by decide)

/-- C4 counterexample: insert_crc8 on [0x02, 0x30, 0xf0, 0x00] with generator
0xA6 gives [0x02, 0x30, 0xf0, 0xAE], but corrupting byte 1 from 0x30 to 0x63 is
NOT detected: has_valid_crc8 still returns true, because 0xA6 encodes a
polynomial divisible by x (even byte), and (0x30 XOR 0x63) << 16 is a GF(2)
multiple of it. -/
theorem C4_counterexample :
    insert_crc8 [0x02, 0x30, 0xf0, 0x00] 0xA6 = some [0x02, 0x30, 0xf0, 0xAE]
    ∧ (0x63 : Nat) ≠ 0x30
    ∧ has_valid_crc8 (([0x02, 0x30, 0xf0, 0xAE] : List Nat).set 1 0x63) 0xA6
        = some true := by decide

set_option maxHeartbeats 4000000 in
set_option maxRecDepth 100000 in
/-- C4 (amended): insert_crc8 on [0x02, 0x30, 0xf0, 0x00] with generator 0xA6
gives the buffer [0x02, 0x30, 0xf0, 0xAE], which has_valid_crc8 accepts; replacing
its byte at index 1 (0x30) by any other byte value is detected (returns false)
except for the three values 0x63, 0x96 and 0xC5, which leave the buffer a GF(2)
multiple of the generator and are wrongly accepted. -/
theorem C4_end_to_end :
    insert_crc8 [0x02, 0x30, 0xf0, 0x00] 0xA6 = some [0x02, 0x30, 0xf0, 0xAE]
    ∧ has_valid_crc8 [0x02, 0x30, 0xf0, 0xAE] 0xA6 = some true
    ∧ ∀ v, v < 256 → v ≠ 0x30 →
        has_valid_crc8 (([0x02, 0x30, 0xf0, 0xAE] : List Nat).set 1 v) 0xA6
          = some (v == 0x63 || v == 0x96 || v == 0xC5) := by decide

/-- C5: every CRC operation on the zero-length buffer fails fast (the Rust code
panics on the out-of-range last-byte index); none of them returns a value. -/
theorem C5_empty_buffer_fails (polynomial : Nat) :
    fetch_crc8 [] polynomial = none ∧ has_valid_crc8 [] polynomial = none
      ∧ insert_crc8 [] polynomial = none :=
  ⟨rfl, rfl, rfl⟩

/-- C6: whenever insert_crc8 returns a buffer, all bytes except the last one are
unchanged, and the last byte is the generator XORed with fetch_crc8 of the input
buffer with its last byte zeroed. -/
theorem C6_insert_frame {data b' : List Nat} {p : Nat} (hd : data ≠ [])
    (hins : insert_crc8 data p = some b') :
    (∀ i, i + 1 < data.length → b'.get? i = data.get? i)
    ∧ ∃ r, fetch_crc8 (data.set (data.length - 1) 0) p = some r
        ∧ b'.get? (data.length - 1) = some (p ^^^ r) := by
  have hlpos : 1 ≤ data.length := by
    cases data with
    | nil => exact absurd rfl hd
    | cons a t => simp
  rw [insert_crc8_eq hd p] at hins
  cases hf : fetch_crc8 (data.set (data.length - 1) 0) p with
  | none => rw [hf] at hins; simp at hins
  | some r =>
    rw [hf] at hins
    simp only [Option.map_some', Option.some.injEq] at hins
    have hlen : (data.set (data.length - 1) 0).length = data.length := by simp
    refine ⟨?_, r, rfl, ?_⟩
    · intro i hi
      rw [← hins, hlen]
      rw [List.get?_set_ne _ _ (by omega : data.length - 1 ≠ i),
        List.get?_set_ne _ _ (by omega : data.length - 1 ≠ i)]
    · rw [← hins, hlen]
      exact List.get?_set_eq_of_lt _ (by rw [hlen]; omega)

/-- C6 witness: the frame property of insert_crc8 on [1, 2] with generator 0xD5,
whose result is [1, 127]. -/
theorem C6_insert_frame_witness :
    insert_crc8 [1, 2] 0xD5 = some [1, 127]
    ∧ ((∀ i, i + 1 < ([1, 2] : List Nat).length →
          ([1, 127] : List Nat).get? i = ([1, 2] : List Nat).get? i)
      ∧ ∃ r, fetch_crc8 (([1, 2] : List Nat).set 1 0) 0xD5 = some r
          ∧ ([1, 127] : List Nat).get? 1 = some (0xD5 ^^^ r)) :=
  ⟨by decide, C6_insert_frame (by simp) (by decide)⟩

/-- C7: the crate's division test vector: [0x3f, 0x7e] divided by [0x01, 0x1b]
yields the remainder [0x01, 0x1a]. -/
theorem C7_division_vector : div [0x3f, 0x7e] [0x01, 0x1b] = some [0x01, 0x1a] := by
  decide

/-- C8: bit_len returns the zero-based index, counted from the least significant
bit of the big-endian value of the byte list, of the most significant set bit
(the bit at that index is set and all higher bits are clear), and an all-zero
byte list has bit_len 0. -/
theorem C8_bit_len_spec {arr : List Nat} (hB : Bytes arr) :
    ((∀ b ∈ arr, b = 0) → bit_len arr = 0)
    ∧ (value arr ≠ 0 → Nat.testBit (value arr) (bit_len arr) = true
        ∧ ∀ j, bit_len arr < j → Nat.testBit (value arr) j = false) := by
  constructor
  · intro h
    rw [bit_len_eq_log hB, value_eq_zero_iff.2 h]
    simp
  · intro h
    rw [bit_len_eq_log hB]
    obtain ⟨hlo, hhi⟩ := log2_bounds h
    refine ⟨?_, ?_⟩
    · rw [Nat.testBit_to_div_mod]
      have hp := Nat.two_pow_pos (Nat.log 2 (value arr))
      have h2 : value arr / 2 ^ Nat.log 2 (value arr) < 2 := by
        rw [Nat.div_lt_iff_lt_mul hp]
        have hps : (2 : Nat) ^ (Nat.log 2 (value arr) + 1)
            = 2 * 2 ^ Nat.log 2 (value arr) := by
          rw [pow_succ]
          ring
        omega
      have h3 : 1 ≤ value arr / 2 ^ Nat.log 2 (value arr) :=
        (Nat.one_le_div_iff hp).2 hlo
      have h4 : value arr / 2 ^ Nat.log 2 (value arr) = 1 := by omega
      rw [h4]
      decide
    · intro j hj
      apply Nat.testBit_lt_two_pow
      calc value arr < 2 ^ (Nat.log 2 (value arr) + 1) := hhi
        _ ≤ 2 ^ j := Nat.pow_le_pow_right (by norm_num) (by omega)

/-- C8 witness: the bit_len specification at [0x00, 0x08, 0x00], whose value has
its most significant set bit at index 11. -/
theorem C8_bit_len_spec_witness :
    ((∀ b ∈ ([0x00, 0x08, 0x00] : List Nat), b = 0) → bit_len [0x00, 0x08, 0x00] = 0)
    ∧ (value [0x00, 0x08, 0x00] ≠ 0 →
        Nat.testBit (value [0x00, 0x08, 0x00]) (bit_len [0x00, 0x08, 0x00]) = true
        ∧ ∀ j, bit_len [0x00, 0x08, 0x00] < j →
            Nat.testBit (value [0x00, 0x08, 0x00]) j = false) :=
  C8_bit_len_spec (by intro b hb; simp at hb; omega)

/-- C9: under the loop guard of Div::div (the divisor is not more significant
than the dividend) the dividend's bit_len is at least the divisor's, so the
shift amount bit_len self - bit_len rhs never underflows; and the operations the
loop body uses preserve the byte width, so every index stays in bounds. -/
theorem C9_div_loop_safety {self rhs : List Nat} (hl : self.length = rhs.length)
    (hsB : Bytes self) (hrB : Bytes rhs) (hguard : is_more_sign rhs self = false) :
    bit_len rhs ≤ bit_len self
    ∧ bit_len self - bit_len rhs + bit_len rhs = bit_len self
    ∧ (∀ k, (shl rhs k).length = rhs.length)
    ∧ (sub self (shl rhs (bit_len self - bit_len rhs))).length = self.length
    ∧ (∀ n, (rotate_left rhs n).length = rhs.length) := by
  have h := is_more_sign_spec rhs self hl.symm hrB hsB
  rw [hguard] at h
  have hge : value rhs ≤ value self := by
    have h2 := h.symm
    rw [decide_eq_false_iff_not] at h2
    omega
  have h1 : bit_len rhs ≤ bit_len self := by
    rw [bit_len_eq_log hsB, bit_len_eq_log hrB]
    exact Nat.log_mono_right hge
  exact ⟨h1, by omega, fun k => shl_length rhs k,
    sub_length (by rw [shl_length, ← hl]), fun n => rotate_left_length rhs n⟩

/-- C9 witness: the loop-safety facts at dividend [0x1e] and divisor [0x0b]. -/
theorem C9_div_loop_safety_witness :
    bit_len [0x0b] ≤ bit_len [0x1e]
    ∧ bit_len [0x1e] - bit_len [0x0b] + bit_len [0x0b] = bit_len [0x1e]
    ∧ (∀ k, (shl [0x0b] k).length = ([0x0b] : List Nat).length)
    ∧ (sub [0x1e] (shl [0x0b] (bit_len [0x1e] - bit_len [0x0b]))).length
        = ([0x1e] : List Nat).length
    ∧ (∀ n, (rotate_left [0x0b] n).length = ([0x0b] : List Nat).length) :=
  C9_div_loop_safety rfl (by intro b hb; simp at hb; omega)
    (by intro b hb; simp at hb; omega) (by decide)

/-- C10: with generator byte 0x01 the widened divisor polynomial is the constant
1, every value reduces to remainder 0, so fetch_crc8 is 0 and has_valid_crc8 is
true for every nonempty buffer: generator 1 detects no corruption at all. -/
theorem C10_generator_one {data : List Nat} (hd : data ≠ []) (hB : Bytes data) :
    fetch_crc8 data 1 = some 0 ∧ has_valid_crc8 data 1 = some true := by
  have hm : IsMul 1 (value data) := ⟨value data, (clmul_one_right _).symm⟩
  have hf := fetch_crc8_isMul hd hB (by omega) (by omega) hm
  refine ⟨hf, ?_⟩
  rw [has_valid_crc8, hf]
  rfl

/-- C10 witness: generator 1 accepts the arbitrary buffer [0xab, 0xcd, 0xef]. -/
theorem C10_generator_one_witness :
    fetch_crc8 [0xab, 0xcd, 0xef] 1 = some 0
      ∧ has_valid_crc8 [0xab, 0xcd, 0xef] 1 = some true :=
  C10_generator_one (by simp) (by intro b hb; simp at hb; omega)

/-- C5 witness: the three operations on the empty buffer with generator 0x42. -/
theorem C5_empty_buffer_fails_witness :
    fetch_crc8 [] 0x42 = none ∧ has_valid_crc8 [] 0x42 = none
      ∧ insert_crc8 [] 0x42 = none :=
  C5_empty_buffer_fails 0x42

set_option maxHeartbeats 1000000 in
/-- C4 witness: the amended corruption statement evaluated at the corrupting
byte value 0x99, which is detected. -/
theorem C4_end_to_end_witness :
    has_valid_crc8 (([0x02, 0x30, 0xf0, 0xAE] : List Nat).set 1 0x99) 0xA6
      = some (0x99 == 0x63 || 0x99 == 0x96 || 0x99 == 0xC5) :=
  C4_end_to_end.2.2 0x99 (by decide) (by decide)

end Crc8
